import Mathlib

/-!
Verification of the request-path resolver of `rancher` (vendored
`github.com/rancher/norman/parse/parse.go`).

The Go source is shallowly embedded below.  Strings are modelled through
their character lists; Go's `strings.Split`, `strings.HasPrefix`,
`strings.HasSuffix`, `strings.TrimSpace`, `strings.ToLower` and
`strings.Contains` are embedded as executable functions on `List Char` /
`String`.  Collaborators of the resolver that are not part of the shown
source (the schema registry lookup, the builtin version, `IsBrowser`,
`ValidateMethod`, the error codes of `httperror`) are modelled from the
specification and carry a doc comment saying so.
-/

namespace RancherParse

/-- Embeds `multiSlashRegexp.ReplaceAllString(path, "/")` where
`multiSlashRegexp = regexp.MustCompile("//+")`: every maximal run of two or
more consecutive `'/'` characters is collapsed to a single `'/'` (the
function drops a slash whenever it is immediately followed by another
slash, so exactly one slash of each run survives). -/
def collapseSlashes : List Char → List Char
  | [] => []
  | [c] => [c]
  | a :: b :: rest =>
    if a = '/' ∧ b = '/' then collapseSlashes (b :: rest)
    else a :: collapseSlashes (b :: rest)

/-- Embeds the path normalization performed at the start of
`DefaultURLParser`: `path = multiSlashRegexp.ReplaceAllString(path, "/")`. -/
def normalizePath (s : String) : String :=
  ⟨collapseSlashes s.data⟩

/-- Character list contains no two adjacent slashes. -/
def NoDoubleSlash (l : List Char) : Prop :=
  l.Chain' (fun a b => ¬(a = '/' ∧ b = '/'))

theorem collapseSlashes_head? (c : Char) (l : List Char) :
    (collapseSlashes (c :: l)).head? = some c := by
  induction l generalizing c with
  | nil => rfl
  | cons b rest ih =>
    by_cases h : c = '/' ∧ b = '/'
    · rw [show collapseSlashes (c :: b :: rest) = collapseSlashes (b :: rest) by
        simp [collapseSlashes, h]]
      rw [ih b]
      simp [h.1, h.2]
    · simp [collapseSlashes, h]

theorem collapseSlashes_sublist (l : List Char) :
    (collapseSlashes l).Sublist l := by
  induction l with
  | nil => simp [collapseSlashes]
  | cons a rest ih =>
    cases rest with
    | nil => simp [collapseSlashes]
    | cons b rest' =>
      by_cases h : a = '/' ∧ b = '/'
      · rw [show collapseSlashes (a :: b :: rest') = collapseSlashes (b :: rest') by
          simp [collapseSlashes, h]]
        exact ih.trans (List.sublist_cons_self a (b :: rest'))
      · rw [show collapseSlashes (a :: b :: rest') = a :: collapseSlashes (b :: rest') by
          simp [collapseSlashes, h]]
        exact ih.cons₂ a

theorem collapseSlashes_noDouble (l : List Char) :
    NoDoubleSlash (collapseSlashes l) := by
  induction l with
  | nil => simp [collapseSlashes, NoDoubleSlash]
  | cons a rest ih =>
    cases rest with
    | nil => simp [collapseSlashes, NoDoubleSlash]
    | cons b rest' =>
      by_cases h : a = '/' ∧ b = '/'
      · rw [NoDoubleSlash, show collapseSlashes (a :: b :: rest') = collapseSlashes (b :: rest') by
          simp [collapseSlashes, h]]
        exact ih
      · rw [NoDoubleSlash, show collapseSlashes (a :: b :: rest') = a :: collapseSlashes (b :: rest') by
          simp [collapseSlashes, h]]
        rw [List.chain'_cons']
        refine ⟨?_, ih⟩
        intro y hy
        rw [collapseSlashes_head? b rest'] at hy
        cases hy
        exact h

theorem collapseSlashes_filter (l : List Char) :
    (collapseSlashes l).filter (fun c => !(c == '/')) =
      l.filter (fun c => !(c == '/')) := by
  induction l with
  | nil => rfl
  | cons a rest ih =>
    cases rest with
    | nil => rfl
    | cons b rest' =>
      by_cases h : a = '/' ∧ b = '/'
      · rw [show collapseSlashes (a :: b :: rest') = collapseSlashes (b :: rest') by
          simp [collapseSlashes, h]]
        rw [ih]
        simp [List.filter_cons, h.1]
      · rw [show collapseSlashes (a :: b :: rest') = a :: collapseSlashes (b :: rest') by
          simp [collapseSlashes, h]]
        rw [List.filter_cons, List.filter_cons, ih]

theorem collapseSlashes_of_noDouble (l : List Char) (h : NoDoubleSlash l) :
    collapseSlashes l = l := by
  induction l with
  | nil => rfl
  | cons a rest ih =>
    cases rest with
    | nil => rfl
    | cons b rest' =>
      rw [NoDoubleSlash, List.chain'_cons] at h
      rw [show collapseSlashes (a :: b :: rest') = a :: collapseSlashes (b :: rest') by
        simp [collapseSlashes, h.1]]
      rw [ih h.2]

theorem collapseSlashes_idem (l : List Char) :
    collapseSlashes (collapseSlashes l) = collapseSlashes l :=
  collapseSlashes_of_noDouble _ (collapseSlashes_noDouble l)

/-- Reference normalizer written from the spec's words, to be compared
with the embedding `collapseSlashes`: on reaching a slash, emit a single
slash and skip the whole remaining run of consecutive slashes (so every
run of two or more separators collapses to one, a lone separator stays);
every other character is copied unchanged. -/
def specCollapseSlashes : List Char → List Char
  | [] => []
  | c :: rest =>
    if c = '/' then '/' :: specCollapseSlashes (rest.dropWhile (fun d => d = '/'))
    else c :: specCollapseSlashes rest
termination_by l => l.length
decreasing_by
  all_goals simp_wf
  all_goals
    first
    | (have h := (List.dropWhile_sublist (l := rest) (fun d => d = '/')).length_le
       omega)
    | omega

theorem collapseSlashes_eq_spec (l : List Char) :
    collapseSlashes l = specCollapseSlashes l := by
  induction l with
  | nil => simp [collapseSlashes, specCollapseSlashes]
  | cons a rest ih =>
    cases rest with
    | nil =>
      by_cases ha : a = '/' <;> simp [collapseSlashes, specCollapseSlashes, ha]
    | cons b rest' =>
      by_cases hab : a = '/' ∧ b = '/'
      · obtain ⟨ha, hb⟩ := hab
        subst ha
        subst hb
        rw [show collapseSlashes ('/' :: '/' :: rest') = collapseSlashes ('/' :: rest') by
          simp [collapseSlashes]]
        rw [ih]
        simp [specCollapseSlashes, List.dropWhile_cons]
      · rw [show collapseSlashes (a :: b :: rest') = a :: collapseSlashes (b :: rest') by
          simp [collapseSlashes, hab]]
        rw [ih]
        by_cases ha : a = '/'
        · subst ha
          have hb : ¬ b = '/' := fun h => hab ⟨rfl, h⟩
          simp [specCollapseSlashes, List.dropWhile_cons, hb]
        · simp [specCollapseSlashes, ha]

/-- Claim C10.  Path normalization (the `multiSlashRegexp` replacement in
`DefaultURLParser`) equals the spec-side reference normalizer
`specCollapseSlashes` — every run of two or more consecutive separators is
replaced by a single one and no other character is altered — and it is
idempotent.  Further corollaries: the output never contains two adjacent
separators, it is a sublist of the input (characters are only deleted,
never altered, added or reordered), every non-slash character survives in
order, a path with no adjacent double slash is left unchanged, and the
spec's example `/a///b` normalizes to `/a/b`. -/
theorem normalizePath_spec (p : String) :
    normalizePath p = ⟨specCollapseSlashes p.data⟩
    ∧ normalizePath (normalizePath p) = normalizePath p
    ∧ NoDoubleSlash (normalizePath p).data
    ∧ (normalizePath p).data.Sublist p.data
    ∧ (normalizePath p).data.filter (fun c => !(c == '/')) =
        p.data.filter (fun c => !(c == '/'))
    ∧ (NoDoubleSlash p.data → normalizePath p = p)
    ∧ normalizePath "/a///b" = "/a/b" := by
  refine ⟨?_, ?_, ?_, ?_, ?_, ?_, ?_⟩
  · show (⟨collapseSlashes p.data⟩ : String) = _
    rw [collapseSlashes_eq_spec]
  · show (⟨collapseSlashes (collapseSlashes p.data)⟩ : String) = _
    rw [collapseSlashes_idem]
    rfl
  · exact collapseSlashes_noDouble p.data
  · exact collapseSlashes_sublist p.data
  · exact collapseSlashes_filter p.data
  · intro h
    show (⟨collapseSlashes p.data⟩ : String) = p
    rw [collapseSlashes_of_noDouble p.data h]
  · decide

/-- Witness for claim C10 at the spec's example `/a///b`: idempotence and
the identity on the already-collapsed `/a/b` both instantiate. -/
theorem normalizePath_spec_witness :
    normalizePath (normalizePath "/a///b") = normalizePath "/a///b"
    ∧ normalizePath "/a/b" = "/a/b" :=
  ⟨(normalizePath_spec "/a///b").2.1,
    (normalizePath_spec "/a/b").2.2.2.2.2.1 (by
      show List.Chain' _ ['/', 'a', '/', 'b']
      simp [List.chain'_cons])⟩

/-- Embeds Go `strings.Split(s, "/")` on character lists: splits at every
`'/'`; the empty list yields one empty field, as in Go. -/
def splitSlash : List Char → List (List Char)
  | [] => [[]]
  | c :: rest =>
    if c = '/' then [] :: splitSlash rest
    else
      match splitSlash rest with
      | [] => [[c]]
      | g :: gs => (c :: g) :: gs

theorem splitSlash_ne_nil (l : List Char) : splitSlash l ≠ [] := by
  cases l with
  | nil => simp [splitSlash]
  | cons c rest =>
    by_cases h : c = '/'
    · simp [splitSlash, h]
    · simp only [splitSlash, if_neg h]
      cases splitSlash rest <;> simp

theorem length_splitSlash (l : List Char) :
    (splitSlash l).length = l.count '/' + 1 := by
  induction l with
  | nil => simp [splitSlash]
  | cons c rest ih =>
    by_cases h : c = '/'
    · subst h
      simp [splitSlash, ih, List.count_cons]
    · simp only [splitSlash, if_neg h]
      have hne := splitSlash_ne_nil rest
      rw [List.count_cons]
      simp only [beq_iff_eq, if_neg h]
      cases hsp : splitSlash rest with
      | nil => exact absurd hsp hne
      | cons g gs =>
        rw [hsp] at ih
        simpa using ih

/-- Embeds Go `strings.Split(s, "/")` at the `String` level. -/
def splitStr (s : String) : List String :=
  (splitSlash s.data).map (fun l => ⟨l⟩)

theorem length_splitStr (s : String) :
    (splitStr s).length = s.data.count '/' + 1 := by
  rw [splitStr, List.length_map, length_splitSlash]

/-- Embeds Go `strings.HasPrefix(s, pre)`. -/
def goHasPre (s pre : String) : Bool :=
  List.isPrefixOf pre.data s.data

/-- Embeds Go `strings.HasSuffix(s, suf)`. -/
def goHasSuf (s suf : String) : Bool :=
  List.isSuffixOf suf.data s.data

/-- Embeds Go `strings.Contains(s, sub)`. -/
def goContains (s sub : String) : Bool :=
  decide (sub.data <:+: s.data)

/-- Embeds Go `strings.ToLower` (ASCII letters; request paths, formats and
the probed user-agent / accept tokens are ASCII). -/
def goToLower (s : String) : String :=
  ⟨s.data.map Char.toLower⟩

/-- Embeds Go `strings.TrimSpace`: drops whitespace from both ends. -/
def goTrimSpace (s : String) : String :=
  ⟨((s.data.dropWhile Char.isWhitespace).reverse.dropWhile Char.isWhitespace).reverse⟩

/-- Data model: `types.APIVersion`, restricted to the fields the resolver
reads (`Path`, `SubContext`, `SubContextSchema`). -/
structure APIVersion where
  Path : String
  SubContext : Bool
  SubContextSchema : String
deriving DecidableEq, Repr

/-- Data model: `types.Schema`, restricted to the fields the resolver and
its spec-modelled collaborators read: the canonical `ID`, the
`PluralName`, and the set of allowed HTTP methods. -/
structure Schema where
  ID : String
  PluralName : String
  Methods : List String
deriving DecidableEq, Repr

/-- Data model: the schema registry `*types.Schemas` as the resolver uses
it: `Versions()` is the ordered list of registered versions, and
`Schema(version, typeName)` is the lookup function. -/
structure Schemas where
  versions : List APIVersion
  lookup : APIVersion → String → Option Schema

/-- Comparator of `versionsForPath`'s sort, as a relation suitable for a
stable sort: `a` precedes `b` when `len(b.Path) <= len(a.Path)` (Go sorts
with the strict `less(i, j) = len(i.Path) > len(j.Path)`; the sort is
descending by path length). -/
def byLen (a b : APIVersion) : Prop :=
  b.Path.length ≤ a.Path.length

instance : DecidableRel byLen :=
  fun a b => Nat.decLe _ _

instance : IsTotal APIVersion byLen :=
  ⟨fun a b => Nat.le_total b.Path.length a.Path.length⟩

instance : IsTrans APIVersion byLen :=
  ⟨fun _ _ _ h1 h2 => le_trans h2 h1⟩

/-- Embeds `versionsForPath`: filter the registered versions to those whose
path is a string-prefix of the request path, then sort by descending path
length.  `sort.Slice` promises only a permutation sorted by the supplied
comparator — it is documented as NOT stable — and is embedded here by a
deterministic sort meeting that contract (insertion sort).  No theorem
below relies on the relative order of tied elements; tied matched versions
necessarily carry identical `Path` strings (two equal-length prefixes of
one path coincide), and the tie order the program actually produces is
modelled separately by `goSortSliceSmall`. -/
def versionsForPath (schemas : Schemas) (path : String) : List APIVersion :=
  List.insertionSort byLen
    (schemas.versions.filter (fun version => goHasPre path version.Path))

/-- Embeds the trailing-separator strip at the start of
`parseVersionAndSubContext`: `if strings.HasSuffix(path, "/") { path =
path[:len(path)-1] }`. -/
def stripTrailingSlash (path : String) : String :=
  if goHasSuf path "/" then ⟨path.data.dropLast⟩ else path

/-- Embeds `paths := pathParts[len(versionParts):]` of
`parseVersionAndSubContext`: the request path's `/`-split segments after
the version's own segment count (computed on the stripped path).
Totalization note: the Go slice expression panics (slice bounds out of
range) when `len(versionParts) > len(pathParts)`, whereas `List.drop` is
total and returns `[]` there; the bound holds — and the Go slice is in
range — whenever the version's segment count is at most the stripped
path's (see `parseVSC_no_out_of_range`), and fails exactly when the
version's path ends with `/` and equals the request path (see
`parseVSC_short_remaining_panics`), where the Go program crashes instead
of returning. -/
def remainingSegments (version : APIVersion) (path : String) : List String :=
  (splitStr (stripTrailingSlash path)).drop (splitStr version.Path).length

/-- Embeds `parseVersionAndSubContext`.  Structure notes relative to the Go
source: the Go guard `!version.SubContext || len(versions) < 2` is split
into the `restVersions` match (the `len(versions) < 2` disjunct) followed
by the `!version.SubContext` test, which is equivalent; `&versions[1]` is
the `second` binder of that match; the Go probe loop over `versions`
(which, on a hit at index `0`, breaks and falls through to the final
`return version, "/" + paths[0], paths[1:], attrs`) is split into the probe
of the primary (`schemas.lookup version`) followed by `find?` over the
remaining candidates in order; `headD` / `getD` replace the in-bounds Go
index expressions `paths[0]` / `paths[1]` under the same guards.
Totalization note: the Go slices `pathParts[len(versionParts):]` and
`pathParts[len(versionParts)-1:]` panic when `len(versionParts)` exceeds
`len(pathParts)`, while the total `drop` used here returns a value; that
regime is reachable exactly when the primary's path ends with `/` and
equals the request path (see `remainingSegments`,
`parseVSC_no_out_of_range` and `parseVSC_short_remaining_panics`). -/
def parseVersionAndSubContext (schemas : Schemas) (path : String) :
    Option APIVersion × String × List String × Option (String × String) :=
  match versionsForPath schemas path with
  | [] => (none, "", [], none)
  | version :: restVersions =>
    let paths := remainingSegments version path
    match restVersions with
    | [] => (some version, "", paths, none)
    | second :: _ =>
      if !version.SubContext then (some version, "", paths, none)
      else if paths.length < 2 then
        (some second, "",
          (splitStr (stripTrailingSlash path)).drop ((splitStr version.Path).length - 1), none)
      else
        let attrs := some (version.SubContextSchema, paths.headD "")
        match schemas.lookup version (paths.getD 1 "") with
        | some _ => (some version, "/" ++ paths.headD "", paths.drop 1, attrs)
        | none =>
          match restVersions.find? (fun v => (schemas.lookup v (paths.getD 1 "")).isSome) with
          | some v => (some v, "", paths.drop 1, attrs)
          | none => (some version, "/" ++ paths.headD "", paths.drop 1, attrs)

theorem parseVSC_genuine_branch (schemas : Schemas) (path : String)
    (v0 v1 : APIVersion) (restV : List APIVersion) (p0 p1 : String) (ps : List String)
    (hv : versionsForPath schemas path = v0 :: v1 :: restV)
    (hsub : v0.SubContext = true)
    (hrem : remainingSegments v0 path = p0 :: p1 :: ps) :
    parseVersionAndSubContext schemas path =
      match schemas.lookup v0 p1 with
      | some _ => (some v0, "/" ++ p0, p1 :: ps, some (v0.SubContextSchema, p0))
      | none =>
        match (v1 :: restV).find? (fun v => (schemas.lookup v p1).isSome) with
        | some v => (some v, "", p1 :: ps, some (v0.SubContextSchema, p0))
        | none => (some v0, "/" ++ p0, p1 :: ps, some (v0.SubContextSchema, p0)) := by
  rw [parseVersionAndSubContext, hv]
  simp only [hrem, hsub, Bool.not_true, if_false, List.headD_cons,
    List.getD_cons_succ, List.getD_cons_zero, List.drop_succ_cons, List.drop_zero]
  rw [if_neg (show ¬ (p0 :: p1 :: ps).length < 2 by simp)]
  simp

/-- Claim C1 (amended).  When at least two versions match, the primary
supports sub-contexts, at least two segments remain, and the primary
itself resolves `remaining[1]` as a schema, the resolver returns the
primary with sub-context path segment `"/" ++ remaining[0]` (not an empty
one), `remaining[1:]` (not the full remaining list), and the sub-context
attribute `primary.SubContextSchema ↦ remaining[0]` (not an absent
attribute map) — i.e. the same result as when no candidate resolves
`remaining[1]`: in the Go source the `i == 0` hit breaks out of the probe
loop into the final fallback return. -/
theorem parseVSC_primary_resolves (schemas : Schemas) (path : String)
    (v0 v1 : APIVersion) (restV : List APIVersion) (p0 p1 : String) (ps : List String)
    (hv : versionsForPath schemas path = v0 :: v1 :: restV)
    (hsub : v0.SubContext = true)
    (hrem : remainingSegments v0 path = p0 :: p1 :: ps)
    (hres : (schemas.lookup v0 p1).isSome = true) :
    parseVersionAndSubContext schemas path =
      (some v0, "/" ++ p0, p1 :: ps, some (v0.SubContextSchema, p0)) := by
  rw [parseVSC_genuine_branch schemas path v0 v1 restV p0 p1 ps hv hsub hrem]
  obtain ⟨s, hs⟩ := Option.isSome_iff_exists.mp hres
  rw [hs]

/-- Sample version `/v3` supporting `cluster` sub-contexts. -/
def exV3 : APIVersion := ⟨"/v3", true, "cluster"⟩

/-- Sample version `/v` (a shorter prefix of `/v3`-paths). -/
def exV : APIVersion := ⟨"/v", false, ""⟩

/-- Sample schema for the `pods` type. -/
def exPodSchema : Schema := ⟨"pod", "pods", ["GET", "POST", "DELETE"]⟩

/-- Sample registry where the primary version `/v3` itself resolves
`pods`. -/
def exS1 : Schemas :=
  ⟨[exV3, exV], fun v t => if v.Path = "/v3" ∧ t = "pods" then some exPodSchema else none⟩

/-- Counterexample to claim C1 as stated: for registry `exS1` and path
`/v3/c-1/pods/p-1`, the claim's guard holds (two versions match, the
primary `/v3` supports sub-contexts, three segments remain, and the
primary resolves `remaining[1] = "pods"`), yet the resolver does not
return `(primary, "", remaining, none)`: it returns sub-context path
segment `"/c-1"`, the shortened remaining list, and a sub-context
attribute. -/
theorem parseVSC_primary_resolves_refuted :
    versionsForPath exS1 "/v3/c-1/pods/p-1" = [exV3, exV]
    ∧ exV3.SubContext = true
    ∧ remainingSegments exV3 "/v3/c-1/pods/p-1" = ["c-1", "pods", "p-1"]
    ∧ (exS1.lookup exV3 "pods").isSome = true
    ∧ parseVersionAndSubContext exS1 "/v3/c-1/pods/p-1" =
        (some exV3, "/c-1", ["pods", "p-1"], some ("cluster", "c-1"))
    ∧ ¬ parseVersionAndSubContext exS1 "/v3/c-1/pods/p-1" =
        (some exV3, "", ["c-1", "pods", "p-1"], none) := by
  refine ⟨by decide, rfl, by decide, by decide, by decide, by decide⟩

/-- Claim C3.  In the genuine-nesting case (two or more versions matched,
primary supports sub-contexts, at least two remaining segments, primary
does not resolve `remaining[1]`), the first subsequent candidate (probed
longest-to-shortest) that resolves `remaining[1]` becomes the effective
version with an empty sub-context path segment, `remaining[1:]`, and the
attribute `primary.SubContextSchema ↦ remaining[0]`; if none resolves it,
the resolver falls back to the primary with `"/" ++ remaining[0]` as the
literal sub-context path segment. -/
theorem parseVSC_nested (schemas : Schemas) (path : String)
    (v0 v1 : APIVersion) (restV : List APIVersion) (p0 p1 : String) (ps : List String)
    (hv : versionsForPath schemas path = v0 :: v1 :: restV)
    (hsub : v0.SubContext = true)
    (hrem : remainingSegments v0 path = p0 :: p1 :: ps)
    (hnone : schemas.lookup v0 p1 = none) :
    parseVersionAndSubContext schemas path =
      match (v1 :: restV).find? (fun v => (schemas.lookup v p1).isSome) with
      | some v => (some v, "", p1 :: ps, some (v0.SubContextSchema, p0))
      | none => (some v0, "/" ++ p0, p1 :: ps, some (v0.SubContextSchema, p0)) := by
  rw [parseVSC_genuine_branch schemas path v0 v1 restV p0 p1 ps hv hsub hrem, hnone]

/-- Sample parent version `/v3/cluster` mounting `cluster` sub-contexts. -/
def exVCluster : APIVersion := ⟨"/v3/cluster", true, "cluster"⟩

/-- Sample nested version `/v3` (plain). -/
def exV3Plain : APIVersion := ⟨"/v3", false, ""⟩

/-- Sample registry for genuine nesting: the nested version `/v3` (not the
primary `/v3/cluster`) resolves `pods`. -/
def exS3 : Schemas :=
  ⟨[exVCluster, exV3Plain],
    fun v t => if v.Path = "/v3" ∧ t = "pods" then some exPodSchema else none⟩

/-- Witness for claim C3 at a concrete genuine-nesting request:
`/v3/cluster/c-1/pods/p-1` resolves to the nested version, type segment
list `["pods", "p-1"]`, and sub-context attribute `cluster ↦ c-1`. -/
theorem parseVSC_nested_witness :
    parseVersionAndSubContext exS3 "/v3/cluster/c-1/pods/p-1" =
      (some exV3Plain, "", ["pods", "p-1"], some ("cluster", "c-1")) := by
  have h := parseVSC_nested exS3 "/v3/cluster/c-1/pods/p-1" exVCluster exV3Plain []
    "c-1" "pods" ["p-1"] (by decide) rfl (by decide) (by decide)
  rw [h]
  rfl

/-- Witness for claim C1 (amended) at the counterexample's registry: the
primary `/v3` resolves `pods`, and the result carries the `/c-1`
sub-context path segment and the `cluster ↦ c-1` attribute. -/
theorem parseVSC_primary_resolves_witness :
    parseVersionAndSubContext exS1 "/v3/c-1/pods/p-1" =
      (some exV3, "/c-1", ["pods", "p-1"], some ("cluster", "c-1")) :=
  parseVSC_primary_resolves exS1 "/v3/c-1/pods/p-1" exV3 exV [] "c-1" "pods" ["p-1"]
    (by decide) rfl (by decide) (by decide)

/-- Last `/`-separated segment of a character list (the last field of its
Go `strings.Split(·, "/")`). -/
def lastSeg (l : List Char) : List Char :=
  (splitSlash l).getLastD []

theorem lastSeg_slash_cons (v : List Char) : lastSeg ('/' :: v) = lastSeg v := by
  rw [lastSeg, lastSeg, show splitSlash ('/' :: v) = [] :: splitSlash v by simp [splitSlash]]
  rw [List.getLastD_cons]

theorem getLastD_cons_cons {α : Type _} (a b : α) (l : List α) (d : α) :
    (a :: b :: l).getLastD d = (b :: l).getLastD d := by
  rw [List.getLastD_cons, List.getLastD_cons, List.getLastD_cons]

theorem splitSlash_cons_ne (c : Char) (v : List Char) (hc : ¬ c = '/') (g : List Char)
    (gs : List (List Char)) (hsp : splitSlash v = g :: gs) :
    splitSlash (c :: v) = (c :: g) :: gs := by
  rw [show splitSlash (c :: v) =
      (match splitSlash v with
        | [] => [[c]]
        | g :: gs => (c :: g) :: gs) by simp [splitSlash, hc]]
  rw [hsp]

/-- Core slice/segment identity: dropping the primary's own slash count
from the split of `v ++ t` equals splitting the last segment of `v`
concatenated with `t`.  This is what makes `pathParts[len(versionParts)-1:]`
equal to "the last segment of the version's path plus everything after
it". -/
theorem drop_count_splitSlash (v t : List Char) :
    (splitSlash (v ++ t)).drop (v.count '/') = splitSlash (lastSeg v ++ t) := by
  induction v with
  | nil => simp [lastSeg, splitSlash]
  | cons c v' ih =>
    by_cases hc : c = '/'
    · subst hc
      rw [show ('/' :: v') ++ t = '/' :: (v' ++ t) from rfl]
      rw [show splitSlash ('/' :: (v' ++ t)) = [] :: splitSlash (v' ++ t) by simp [splitSlash]]
      rw [lastSeg_slash_cons]
      have hcnt : List.count '/' ('/' :: v') = List.count '/' v' + 1 := by
        simp [List.count_cons]
      rw [hcnt, show List.count '/' v' + 1 = (List.count '/' v').succ from rfl,
        List.drop_succ_cons]
      exact ih
    · obtain ⟨g0, gs0, hsp0⟩ : ∃ g0 gs0, splitSlash v' = g0 :: gs0 := by
        cases h0 : splitSlash v' with
        | nil => exact absurd h0 (splitSlash_ne_nil v')
        | cons x xs => exact ⟨x, xs, rfl⟩
      obtain ⟨g, gs, hsp⟩ : ∃ g gs, splitSlash (v' ++ t) = g :: gs := by
        cases h0 : splitSlash (v' ++ t) with
        | nil => exact absurd h0 (splitSlash_ne_nil (v' ++ t))
        | cons x xs => exact ⟨x, xs, rfl⟩
      rw [show (c :: v') ++ t = c :: (v' ++ t) from rfl]
      rw [splitSlash_cons_ne c (v' ++ t) hc g gs hsp]
      rw [List.count_cons, if_neg (by simpa using hc)]
      have hcount : v'.count '/' = gs0.length := by
        have := length_splitSlash v'
        rw [hsp0] at this
        simp at this
        omega
      cases gs0 with
      | nil =>
        have hlast : lastSeg (c :: v') = c :: g0 := by
          rw [lastSeg, splitSlash_cons_ne c v' hc g0 [] hsp0]
          rfl
        have hlast' : lastSeg v' = g0 := by
          rw [lastSeg, hsp0]
          rfl
        rw [hcount]
        simp only [List.length_nil, List.drop_zero]
        rw [hlast, show (c :: g0) ++ t = c :: (g0 ++ t) from rfl]
        rw [hcount] at ih
        simp only [List.length_nil, List.drop_zero] at ih
        rw [hlast'] at ih
        rw [hsp] at ih
        obtain ⟨h, hs, hsp2⟩ : ∃ h hs, splitSlash (g0 ++ t) = h :: hs := by
          cases h0 : splitSlash (g0 ++ t) with
          | nil => exact absurd h0 (splitSlash_ne_nil (g0 ++ t))
          | cons x xs => exact ⟨x, xs, rfl⟩
        rw [splitSlash_cons_ne c (g0 ++ t) hc h hs hsp2]
        rw [hsp2] at ih
        rw [show g = h from congrArg (fun l => l.headD []) ih,
          show gs = hs from congrArg List.tail ih]
        simp
      | cons g1 gs1 =>
        have hlast : lastSeg (c :: v') = lastSeg v' := by
          rw [lastSeg, splitSlash_cons_ne c v' hc g0 (g1 :: gs1) hsp0, lastSeg, hsp0]
          exact getLastD_cons_cons _ _ _ _
        rw [hlast, ← ih, hsp, hcount]
        rw [show (g1 :: gs1).length = gs1.length + 1 from rfl]
        rw [show gs1.length + 1 = gs1.length.succ from rfl, List.drop_succ_cons,
          List.drop_succ_cons]

/-- Membership in the matched-version list means: registered, and the
version's path is a string-prefix of the request path. -/
theorem mem_versionsForPath (schemas : Schemas) (path : String) (v : APIVersion)
    (hm : v ∈ versionsForPath schemas path) :
    v ∈ schemas.versions ∧ goHasPre path v.Path = true := by
  rw [versionsForPath] at hm
  have hm2 := (List.perm_insertionSort byLen _).mem_iff.mp hm
  exact List.mem_filter.mp hm2

/-- If a version's path is a prefix of the request path and does not end in
the separator, it is still a prefix after the trailing-slash strip, with an
explicit leftover suffix. -/
theorem strip_decomp (v path : String)
    (hpre : goHasPre path v = true) (hsuf : goHasSuf v "/" = false) :
    ∃ t : List Char, (stripTrailingSlash path).data = v.data ++ t := by
  rw [goHasPre] at hpre
  obtain ⟨t0, ht0⟩ := List.isPrefixOf_iff_prefix.mp hpre
  rw [stripTrailingSlash]
  by_cases hs : goHasSuf path "/" = true
  · rw [if_pos hs]
    cases t0 with
    | nil =>
      exfalso
      rw [List.append_nil] at ht0
      rw [goHasSuf, show ("/" : String).data = ['/'] from rfl] at hsuf hs
      rw [← ht0] at hs
      rw [hs] at hsuf
      simp at hsuf
    | cons c t1 =>
      refine ⟨(c :: t1).dropLast, ?_⟩
      show path.data.dropLast = _
      rw [← ht0]
      exact List.dropLast_append_of_ne_nil v.data (List.cons_ne_nil c t1)
  · rw [if_neg hs]
    exact ⟨t0, ht0.symm⟩

theorem eq_path_of_mem_versionsForPath (schemas : Schemas) (path : String)
    (u w : APIVersion) (hu : u ∈ versionsForPath schemas path)
    (hw : w ∈ versionsForPath schemas path)
    (hlen : u.Path.length = w.Path.length) : u.Path = w.Path := by
  obtain ⟨-, hu2⟩ := mem_versionsForPath schemas path u hu
  obtain ⟨-, hw2⟩ := mem_versionsForPath schemas path w hw
  rw [goHasPre] at hu2 hw2
  have hu3 := List.prefix_iff_eq_take.mp (List.isPrefixOf_iff_prefix.mp hu2)
  have hw3 := List.prefix_iff_eq_take.mp (List.isPrefixOf_iff_prefix.mp hw2)
  have hlen' : u.Path.data.length = w.Path.data.length := hlen
  apply String.ext
  rw [hu3, hw3, hlen']

/-- Claim C4 (amended).  `versionsForPath` returns exactly the registered
versions whose path is a string-prefix of the request path (a permutation
of the registry-order filter), sorted by descending path length; and any
two matched versions with equal-length paths have identical path strings
(so the sequence of paths is uniquely determined even though `sort.Slice`
does not fix the order among tied, duplicate-path registrations). -/
theorem versionsForPath_spec (schemas : Schemas) (path : String) :
    List.Perm (versionsForPath schemas path)
      (schemas.versions.filter (fun version => goHasPre path version.Path))
    ∧ List.Sorted byLen (versionsForPath schemas path)
    ∧ ∀ u ∈ versionsForPath schemas path, ∀ w ∈ versionsForPath schemas path,
        u.Path.length = w.Path.length → u.Path = w.Path := by
  refine ⟨List.perm_insertionSort byLen _, List.sorted_insertionSort byLen _, ?_⟩
  intro u hu w hw hlen
  exact eq_path_of_mem_versionsForPath schemas path u w hu hw hlen

/-- Sample registry with two versions registered under the same path
`/v3`, differing in their sub-context fields. -/
def exSDup : Schemas :=
  ⟨[⟨"/v3", true, "x"⟩, ⟨"/v3", false, ""⟩], fun _ _ => none⟩

/-- Witness for claim C4 (amended) at a concrete registry with a
duplicate-path pair: the matched list is a permutation of the filter, and
the two tied versions carry identical path strings. -/
theorem versionsForPath_spec_witness :
    List.Perm (versionsForPath exSDup "/v3/q")
      (exSDup.versions.filter (fun version => goHasPre "/v3/q" version.Path))
    ∧ (⟨"/v3", true, "x"⟩ : APIVersion).Path = (⟨"/v3", false, ""⟩ : APIVersion).Path :=
  ⟨(versionsForPath_spec exSDup "/v3/q").1,
    (versionsForPath_spec exSDup "/v3/q").2.2 ⟨"/v3", true, "x"⟩ (by decide)
      ⟨"/v3", false, ""⟩ (by decide) rfl⟩

/-- Swap of the elements at two positions (the identity when either index
is out of range) — `data.Swap(i, j)` of Go's `sort` package. -/
def listSwap {α : Type _} (l : List α) (i j : Nat) : List α :=
  match l.get? i, l.get? j with
  | some x, some y => (l.set i y).set j x
  | _, _ => l

/-- The ShellSort pass of Go's (pre-1.19) `quickSort` for ranges of at
most 12 elements: `for i := a + 6; i < b; i++ { if data.Less(i, i-6) {
data.Swap(i, i-6) } }`. -/
def shellPass {α : Type _} (less : α → α → Bool) (l : List α) : List α :=
  (List.range l.length).foldl
    (fun acc i =>
      if 6 ≤ i then
        match acc.get? i, acc.get? (i - 6) with
        | some x, some y => if less x y then listSwap acc i (i - 6) else acc
        | _, _ => acc
      else acc) l

/-- Inner loop of Go's `insertionSort`: starting at position `i`, swap the
element leftwards while it is strictly `less` than its predecessor. -/
def sinkLeft {α : Type _} (less : α → α → Bool) : List α → Nat → List α
  | l, 0 => l
  | l, j + 1 =>
    match l.get? (j + 1), l.get? j with
    | some x, some y => if less x y then sinkLeft less (listSwap l (j + 1) j) j else l
    | _, _ => l

/-- Go's `insertionSort`: `for i := a + 1; i < b; i++ { for j := i; j > a
&& data.Less(j, j-1); j-- { data.Swap(j, j-1) } }`. -/
def goInsertionSort {α : Type _} (less : α → α → Bool) (l : List α) : List α :=
  (List.range l.length).foldl (fun acc i => sinkLeft less acc i) l

/-- The complete code path `sort.Slice` takes for slices of at most 12
elements in the Go releases contemporary with this vendored source
(pre-1.19 `sort.quickSort`): for `b - a > 1`, the gap-6 ShellSort pass
followed by `insertionSort`. -/
def goSortSliceSmall {α : Type _} (less : α → α → Bool) (l : List α) : List α :=
  if l.length ≤ 1 then l else goInsertionSort less (shellPass less l)

/-- The comparator `versionsForPath` hands to `sort.Slice`:
`len(matchedVersion[i].Path) > len(matchedVersion[j].Path)`. -/
def goLess (a b : APIVersion) : Bool :=
  b.Path.length < a.Path.length

/-- Sample filler version with the one-character path `/`. -/
def cexStabFill : APIVersion := ⟨"/", false, ""⟩

/-- Sample version registered under `/ab`, first of a duplicate-path
pair. -/
def cexStabA : APIVersion := ⟨"/ab", true, "cluster"⟩

/-- Sample version registered under `/ab`, second of a duplicate-path
pair (differs from the first in its sub-context fields). -/
def cexStabB : APIVersion := ⟨"/ab", false, ""⟩

/-- Sample seven-version registry order: the duplicate-path pair sits at
indices 1 and 6, six positions apart. -/
def cexStabReg : List APIVersion :=
  [cexStabFill, cexStabA, cexStabFill, cexStabFill, cexStabFill, cexStabFill, cexStabB]

/-- Counterexample to claim C4 as stated (the stability-of-ties clause):
for the request path `/ab/x` every one of the seven registered versions
matches, so the filter step keeps registry order with `cexStabA` before
`cexStabB`; `sort.Slice` on this 7-element slice runs the gap-6 ShellSort
pass, which swaps `cexStabB` (path length 3, index 6) with the length-1
filler at index 0, carrying it past the equal-length `cexStabA`; the
subsequent insertion sort never reorders the tied pair (the comparator is
strict).  The matcher's output therefore lists the equal-length versions
as `[cexStabB, cexStabA]` — not their registry order
`[cexStabA, cexStabB]` — for two distinct version values. -/
theorem versionsForPath_stable_refuted :
    cexStabReg.filter (fun v => goHasPre "/ab/x" v.Path) = cexStabReg
    ∧ goSortSliceSmall goLess cexStabReg =
        [cexStabB, cexStabA, cexStabFill, cexStabFill, cexStabFill, cexStabFill, cexStabFill]
    ∧ (goSortSliceSmall goLess cexStabReg).filter (fun v => v.Path.length == 3)
        = [cexStabB, cexStabA]
    ∧ (cexStabReg.filter (fun v => goHasPre "/ab/x" v.Path)).filter
        (fun v => v.Path.length == 3) = [cexStabA, cexStabB]
    ∧ ¬ cexStabA = cexStabB := by
  refine ⟨by decide, by decide, by decide, by decide, by decide⟩

/-- Claim C9.  When no registered version's path ends with the separator,
the slicing of `parseVersionAndSubContext` stays in bounds for the shallow
embedding: the primary matched version's segment count never exceeds the
stripped path's segment count (so `pathParts[len(versionParts):]` and
`pathParts[len(versionParts)-1:]` are well-formed slices), the version's
split is nonempty, and the second matched version is consulted only when
at least two versions matched (with a single match the result is built
from the primary alone). -/
theorem parseVSC_no_out_of_range (schemas : Schemas) (path : String)
    (h : ∀ v ∈ schemas.versions, goHasSuf v.Path "/" = false) :
    ∀ v0 restV, versionsForPath schemas path = v0 :: restV →
      (splitStr v0.Path).length ≤ (splitStr (stripTrailingSlash path)).length
      ∧ 1 ≤ (splitStr v0.Path).length
      ∧ (restV = [] →
          parseVersionAndSubContext schemas path =
            (some v0, "", remainingSegments v0 path, none)) := by
  intro v0 restV hv
  have hmem : v0 ∈ versionsForPath schemas path := by
    rw [hv]
    exact List.mem_cons_self _ _
  obtain ⟨hreg, hpre⟩ := mem_versionsForPath schemas path v0 hmem
  obtain ⟨t, ht⟩ := strip_decomp v0.Path path hpre (h v0 hreg)
  refine ⟨?_, ?_, ?_⟩
  · rw [length_splitStr, length_splitStr, ht, List.count_append]
    omega
  · rw [length_splitStr]
    omega
  · intro hrest
    subst hrest
    rw [parseVersionAndSubContext, hv]

/-- Witness for claim C9 at a concrete registry and path. -/
theorem parseVSC_no_out_of_range_witness :
    (∀ v ∈ exS1.versions, goHasSuf v.Path "/" = false)
    ∧ (splitStr exV3.Path).length ≤ (splitStr (stripTrailingSlash "/v3/c-1")).length :=
  ⟨by decide, (parseVSC_no_out_of_range exS1 "/v3/c-1" (by decide) exV3 [exV] (by decide)).1⟩

/-- Formalizes the claim's wording for the short-remaining branch,
following the spec: "`remaining` = the last segment of the primary
version's own path plus everything after it" — the last `/`-separated
segment of the primary's path, concatenated with everything after the
primary's path in the (trailing-slash-stripped) request path, re-split at
separators. -/
def specShortRemaining (primary : APIVersion) (path : String) : List String :=
  (splitSlash (lastSeg primary.Path.data ++
    (stripTrailingSlash path).data.drop primary.Path.data.length)).map (fun l => ⟨l⟩)

/-- Variant of `strip_decomp` for claim C2: a version path that is a
prefix of the request path and loses no slashes to the trailing-slash
strip (the in-bounds condition of the Go slice) is still a prefix of the
stripped path, with an explicit leftover suffix. -/
theorem strip_decomp_of_le (v path : String)
    (hpre : goHasPre path v = true)
    (hle : List.count '/' v.data ≤ List.count '/' (stripTrailingSlash path).data) :
    ∃ t : List Char, (stripTrailingSlash path).data = v.data ++ t := by
  rw [goHasPre] at hpre
  obtain ⟨t0, ht0⟩ := List.isPrefixOf_iff_prefix.mp hpre
  by_cases hs : goHasSuf path "/" = true
  · rw [stripTrailingSlash, if_pos hs] at hle ⊢
    cases t0 with
    | nil =>
      exfalso
      rw [List.append_nil] at ht0
      rw [goHasSuf] at hs
      obtain ⟨ys, hys⟩ := List.isSuffixOf_iff_suffix.mp hs
      have hys' : ys ++ ['/'] = path.data := hys
      have hdrop : path.data.dropLast = ys := by
        rw [← hys', List.dropLast_append_of_ne_nil ys (List.cons_ne_nil '/' [])]
        simp
      have hcnt : List.count '/' path.data = List.count '/' ys + 1 := by
        rw [← hys', List.count_append]
        simp
      rw [ht0] at hle
      rw [show (⟨path.data.dropLast⟩ : String).data = path.data.dropLast from rfl] at hle
      rw [hdrop, hcnt] at hle
      omega
    | cons c t1 =>
      refine ⟨(c :: t1).dropLast, ?_⟩
      show path.data.dropLast = _
      rw [← ht0]
      exact List.dropLast_append_of_ne_nil v.data (List.cons_ne_nil c t1)
  · rw [stripTrailingSlash, if_neg hs]
    exact ⟨t0, ht0.symm⟩

/-- Supporting theorem for claim C2.  Wherever the Go slice
`pathParts[len(versionParts):]` is in bounds — the primary's segment
count is at most the stripped path's, i.e. the program returns instead of
panicking — the short-remaining branch behaves exactly as the claim
states: the resolver returns the second-longest matched version, the
remaining segments equal to the last segment of the primary version's own
path followed by everything after it in the stripped request path, an
empty sub-context path segment, and no sub-context attributes. -/
theorem parseVSC_short_remaining (schemas : Schemas) (path : String)
    (v0 v1 : APIVersion) (restV : List APIVersion)
    (hv : versionsForPath schemas path = v0 :: v1 :: restV)
    (hsub : v0.SubContext = true)
    (hshort : (remainingSegments v0 path).length < 2)
    (hbound : (splitStr v0.Path).length ≤ (splitStr (stripTrailingSlash path)).length) :
    parseVersionAndSubContext schemas path =
      (some v1, "", specShortRemaining v0 path, none) := by
  have hmem : v0 ∈ versionsForPath schemas path := by
    rw [hv]
    exact List.mem_cons_self _ _
  obtain ⟨hreg, hpre⟩ := mem_versionsForPath schemas path v0 hmem
  have hle : List.count '/' v0.Path.data ≤ List.count '/' (stripTrailingSlash path).data := by
    rw [length_splitStr, length_splitStr] at hbound
    omega
  obtain ⟨t, ht⟩ := strip_decomp_of_le v0.Path path hpre hle
  have hlen : (splitStr v0.Path).length - 1 = List.count '/' v0.Path.data := by
    rw [length_splitStr]
    omega
  have hkey : (splitStr (stripTrailingSlash path)).drop ((splitStr v0.Path).length - 1)
      = specShortRemaining v0 path := by
    rw [hlen, splitStr, ht, ← List.map_drop, drop_count_splitSlash, specShortRemaining, ht,
      List.drop_left]
  rw [parseVersionAndSubContext, hv]
  simp only [hsub, Bool.not_true]
  rw [if_neg (show ¬ (false = true) by simp), if_pos hshort, hkey]

/-- Sample registry whose primary version's path ends with the separator:
`/v3/` supports sub-contexts, `/v` is a shorter match. -/
def exS2 : Schemas :=
  ⟨[⟨"/v3/", true, "cluster"⟩, ⟨"/v", false, ""⟩], fun _ _ => none⟩

/-- Claim C2's failing input, evaluated: for registry `exS2` and the
normalized request path `/v3/`, the claim's guards hold (two versions
match, the primary `/v3/` supports sub-contexts, fewer than two segments
remain), yet `len(versionParts) = 3 > 2 = len(pathParts)` after the
trailing-slash strip, so the Go slice expression
`pathParts[len(versionParts):]` is out of range: the program panics
before any return, instead of producing the claim's described result. -/
theorem parseVSC_short_remaining_panics :
    versionsForPath exS2 "/v3/" = [⟨"/v3/", true, "cluster"⟩, ⟨"/v", false, ""⟩]
    ∧ (⟨"/v3/", true, "cluster"⟩ : APIVersion).SubContext = true
    ∧ (remainingSegments ⟨"/v3/", true, "cluster"⟩ "/v3/").length < 2
    ∧ (splitStr (⟨"/v3/", true, "cluster"⟩ : APIVersion).Path).length = 3
    ∧ (splitStr (stripTrailingSlash "/v3/")).length = 2
    ∧ ¬ (splitStr (⟨"/v3/", true, "cluster"⟩ : APIVersion).Path).length
        ≤ (splitStr (stripTrailingSlash "/v3/")).length := by
  refine ⟨by decide, rfl, by decide, by decide, by decide, by decide⟩

/-- Concrete instance of the short-remaining behavior, matching the
spec's disambiguation example: versions `/v3/cluster` (sub-context
capable) and `/v3`, path `/v3/cluster/foo` — resolves to `/v3` with
remaining `["cluster", "foo"]` and no sub-context attributes. -/
theorem parseVSC_short_remaining_witness :
    parseVersionAndSubContext exS3 "/v3/cluster/foo" =
      (some exV3Plain, "", ["cluster", "foo"], none) := by
  have h := parseVSC_short_remaining exS3 "/v3/cluster/foo" exVCluster exV3Plain []
    (by decide) rfl (by decide) (by decide)
  rw [h]
  decide

/-- Data model: the request URL as the resolver consumes it — its path and
its query parameters (`url.Values` is a key to multi-value mapping whose
`Get` returns the first value; it is modelled as an association list). -/
structure URL where
  Path : String
  Query : List (String × String)
deriving DecidableEq, Repr

/-- Data model: the HTTP request fields the resolver reads — method, URL,
and the `User-Agent` / `Accept` headers (consumed by the spec-modelled
`IsBrowser`). -/
structure Request where
  Method : String
  UserAgent : String
  Accept : String
  URL : URL
deriving DecidableEq, Repr

/-- Embeds `url.Query().Get(key)`: the first value listed for the key, or
the empty string. -/
def queryGet (q : List (String × String)) (k : String) : String :=
  match q.find? (fun p => p.1 == k) with
  | some p => p.2
  | none => ""

/-- Data model: `ParsedURL` (the output of the URL-parsing strategy).  The
Go field `Type` is rendered as `type` (`Type` is reserved in Lean);
`SubContext` is the at-most-one-entry attribute map; `SubContextPref` is
the Go field `SubContextPrefix`. -/
structure ParsedURL where
  Version : String := ""
  type : String := ""
  ID : String := ""
  Link : String := ""
  Method : String := ""
  Action : String := ""
  SubContext : Option (String × String) := none
  SubContextPref : String := ""
  Query : List (String × String) := []
deriving DecidableEq, Repr

/-- Modelled from the spec (§7): the error kinds of `httperror` raised by
resolution (`NotFound`, `MethodNotAllowed`), plus opaque pass-through
errors of the pluggable type resolver. -/
inductive ErrorCodeKind where
  | NotFound
  | MethodNotAllowed
  | Passthrough (tag : String)
deriving DecidableEq, Repr

/-- Modelled from the spec (§7): an `httperror.APIError` — a kind plus a
human-readable message. -/
structure ApiError where
  Code : ErrorCodeKind
  Message : String
deriving DecidableEq, Repr

/-- Data model: `types.APIContext`, restricted to the fields `Parse`
touches (the `URLBuilder` is an out-of-scope collaborator).  The Go field
`Type` is rendered as `type`. -/
structure APIContext where
  Method : String
  ResponseFormat : String
  type : String
  ID : String
  Link : String
  Action : String
  SubContext : Option (String × String)
  Query : List (String × String)
  Version : Option APIVersion
  Schema : Option Schema
  Schemas : Schemas

deriving instance DecidableEq for Except

/-- Models `ResolverFunc`: the pluggable type-resolver capability.  Per
the spec (§4.7) it "may bind `context.schema`" and may raise an error; the
mutation of the context's schema pointer is rendered as the returned
`Option Schema`. -/
def ResolverFunc : Type :=
  String → APIContext → Except ApiError (Option Schema)

/-- Models the `URLParser` strategy type. -/
def URLParser : Type :=
  Schemas → URL → ParsedURL × Option ApiError

/-- Modelled from the spec: `builtin.Version`, the registry's builtin/root
version under which the reserved `apiRoot` and `schema` types live (not
part of the shown source). -/
def builtinVersion : APIVersion := ⟨"/meta", false, ""⟩

/-- Modelled from the spec: the registry's reserved schema type name
(`builtin.Schema.ID`). -/
def builtinSchemaID : String := "schema"

/-- Modelled from the spec: the plural of the reserved schema type name
(`builtin.Schema.PluralName`). -/
def builtinSchemaPlural : String := "schemas"

/-- Embeds `safeIndex`: the element at the index, or the empty string when
out of range. -/
def safeIndex (slice : List String) (index : Nat) : String :=
  if index ≥ slice.length then "" else slice.getD index ""

/-- Embeds `parseMethod`: the `_method` query override when non-empty,
else the raw HTTP method. -/
def parseMethod (req : Request) : String :=
  let method := queryGet req.URL.Query "_method"
  if method = "" then req.Method else method

/-- Embeds `parseAction`: returns `(action, methodOverride)`; the reserved
action `remove` is surfaced as the method override `DELETE` with an empty
action. -/
def parseAction (url : URL) : String × String :=
  let action := queryGet url.Query "action"
  if action = "remove" then ("", "DELETE") else (action, "")

/-- Embeds the `allowedFormats` map `{"html": true, "json": true}`. -/
def allowedFormats (format : String) : Bool :=
  format == "html" || format == "json"

/-- Modelled from the spec (§4.6, and the source comment "User agent has
Mozilla and browser accepts */*"): `IsBrowser(req, checkAccept)` of the
`parse` package (defined outside the shown source) holds when the
lower-cased User-Agent contains `mozilla` and, when `checkAccept` is set,
the lower-cased Accept header contains `*/*`. -/
def IsBrowser (req : Request) (checkAccept : Bool) : Bool :=
  (!checkAccept || goContains (goToLower req.Accept) "*/*")
    && goContains (goToLower req.UserAgent) "mozilla"

/-- Embeds `parseResponseFormat`: the trimmed lower-cased `_format` value
when allowed; else `html` for interactive browsers; else `json`. -/
def parseResponseFormat (req : Request) : String :=
  let format0 := queryGet req.URL.Query "_format"
  let format := if format0 ≠ "" then goTrimSpace (goToLower format0) else format0
  if allowedFormats format then format
  else if IsBrowser req true then "html"
  else "json"

/-- Embeds `DefaultURLParser`: normalize the path, resolve version and
sub-context, and package the positional `{type, id, link}` segments; when
no version matched, the zero `ParsedURL` is returned.  Always returns a
nil error, as in the source. -/
def DefaultURLParser (schemas : Schemas) (url : URL) : ParsedURL × Option ApiError :=
  let path := normalizePath url.Path
  match parseVersionAndSubContext schemas path with
  | (none, _, _, _) => ({}, none)
  | (some version, pre, parts, subContext) =>
    ({ Version := version.Path,
       SubContext := subContext,
       SubContextPref := pre,
       Action := (parseAction url).1,
       Method := (parseAction url).2,
       Query := url.Query,
       type := safeIndex parts 0,
       ID := safeIndex parts 1,
       Link := safeIndex parts 2 }, none)

/-- Embeds `DefaultResolver`: look the type up under the request's
version; the reserved schema type (or its plural) falls back to the
builtin version; bind the schema when found; never errors. -/
def DefaultResolver (typeName : String) (apiContext : APIContext) :
    Except ApiError (Option Schema) :=
  if typeName = "" then Except.ok none
  else
    let schema0 :=
      match apiContext.Version with
      | some v => apiContext.Schemas.lookup v typeName
      | none => none
    let schema1 :=
      match schema0 with
      | some s => some s
      | none =>
        if typeName = builtinSchemaID ∨ typeName = builtinSchemaPlural then
          apiContext.Schemas.lookup builtinVersion typeName
        else none
    Except.ok schema1

/-- Modelled from the spec (§4.7 step 7): `ValidateMethod` checks the
effective method against the resolved schema's allowed operations and
raises `MethodNotAllowed` when it is not permitted; it never modifies the
context. -/
def ValidateMethod (ctx : APIContext) : Option ApiError :=
  match ctx.Schema with
  | none => none
  | some schema =>
    if ctx.Method ∈ schema.Methods then none
    else some ⟨ErrorCodeKind.MethodNotAllowed, "Method " ++ ctx.Method ++ " not supported"⟩

/-- Embeds the start of `Parse`: the fresh context of
`types.NewAPIContext` with the unconditional method and response-format
assignment (computed before any error can occur). -/
def newAPIContext (req : Request) (schemas : Schemas) : APIContext :=
  { Method := parseMethod req, ResponseFormat := parseResponseFormat req,
    type := "", ID := "", Link := "", Action := "", SubContext := none,
    Query := [], Version := none, Schema := none, Schemas := schemas }

/-- Embeds the field-copy block of `Parse`: every `ParsedURL` field is
copied into the context (the parsed method only when non-empty), and
`result.Version` is bound by the registry loop to the first registered
version whose path equals the parsed version string. -/
def applyParsedURL (schemas : Schemas) (base : APIContext) (parsed : ParsedURL) : APIContext :=
  { base with
    SubContext := parsed.SubContext,
    type := parsed.type, ID := parsed.ID, Link := parsed.Link,
    Action := parsed.Action, Query := parsed.Query,
    Method := if parsed.Method ≠ "" then parsed.Method else base.Method,
    Version := schemas.versions.find? (fun v => v.Path == parsed.Version) }

/-- The context as populated by `Parse` just before the error check: fresh
context, URL-parser output copied in, version bound. -/
def parsedContext (schemas : Schemas) (req : Request) (urlP : URLParser) : APIContext :=
  applyParsedURL schemas (newAPIContext req schemas) (urlP schemas req.URL).1

/-- Embeds `Parse`.  Structure notes relative to the Go source: the
URL-builder construction (`urlbuilder.New`, `SetSubContext`) is the
out-of-scope collaborator and is modelled as infallible, so its
error-return branch is dead; the resolver's binding of `result.Schema` is
the returned `Option Schema`; `http.MethodGet` is the literal `"GET"`;
the final `ValidateMethod` is the spec-modelled validator above. -/
def Parse (schemas : Schemas) (req : Request) (urlP : URLParser)
    (resolverFunc : ResolverFunc) : APIContext × Option ApiError :=
  let result := parsedContext schemas req urlP
  match (urlP schemas req.URL).2 with
  | some e => (result, some e)
  | none =>
    match result.Version with
    | none =>
      ({ result with
         Method := "GET", type := "apiRoot",
         Schema := schemas.lookup builtinVersion "apiRoot" }, none)
    | some version =>
      match resolverFunc result.type result with
      | Except.error e => (result, some e)
      | Except.ok os =>
        match os with
        | none =>
          let e :=
            if result.type ≠ "" then
              some ⟨ErrorCodeKind.NotFound, "failed to find schema " ++ result.type⟩
            else none
          ({ result with
             Schema := schemas.lookup builtinVersion "apiRoot",
             Method := "GET", type := "apiRoot", ID := version.Path }, e)
        | some schema =>
          let result2 := { result with Schema := some schema, type := schema.ID }
          match ValidateMethod result2 with
          | some e => (result2, some e)
          | none => (result2, none)

theorem DefaultURLParser_snd (schemas : Schemas) (url : URL) :
    (DefaultURLParser schemas url).2 = none := by
  simp only [DefaultURLParser]
  rcases parseVersionAndSubContext schemas (normalizePath url.Path) with ⟨v, pre, parts, sc⟩
  cases v <;> rfl

theorem parsedContext_Version (schemas : Schemas) (req : Request) (urlP : URLParser) :
    (parsedContext schemas req urlP).Version =
      schemas.versions.find? (fun v => v.Path == ((urlP schemas req.URL).1).Version) :=
  rfl

theorem parsedContext_type (schemas : Schemas) (req : Request) (urlP : URLParser) :
    (parsedContext schemas req urlP).type = ((urlP schemas req.URL).1).type :=
  rfl

theorem parsedContext_Method (schemas : Schemas) (req : Request) (urlP : URLParser) :
    (parsedContext schemas req urlP).Method =
      (if ((urlP schemas req.URL).1).Method ≠ "" then ((urlP schemas req.URL).1).Method
       else parseMethod req) :=
  rfl

theorem parsedContext_Action (schemas : Schemas) (req : Request) (urlP : URLParser) :
    (parsedContext schemas req urlP).Action = ((urlP schemas req.URL).1).Action :=
  rfl

/-- Claim C5.  When the parsed version string matches no registered
version, `Parse` succeeds (nil error) with the context downgraded to the
`apiRoot` pseudo-resource and the method forced to `GET`. -/
theorem Parse_no_version_match (schemas : Schemas) (req : Request) (rf : ResolverFunc)
    (h : ∀ v ∈ schemas.versions, ¬ v.Path = ((DefaultURLParser schemas req.URL).1).Version) :
    (Parse schemas req DefaultURLParser rf).2 = none
    ∧ (Parse schemas req DefaultURLParser rf).1.type = "apiRoot"
    ∧ (Parse schemas req DefaultURLParser rf).1.Method = "GET" := by
  have hfind : (parsedContext schemas req DefaultURLParser).Version = none := by
    rw [parsedContext_Version]
    apply List.find?_eq_none.mpr
    intro v hv
    simpa using h v hv
  simp only [Parse]
  rw [DefaultURLParser_snd, hfind]
  exact ⟨rfl, rfl, rfl⟩

/-- Sample registry with the single plain version `/v3` and an empty
schema table. -/
def exS6 : Schemas := ⟨[⟨"/v3", false, ""⟩], fun _ _ => none⟩

/-- Sample request for a path under no registered version. -/
def reqUnknown : Request := ⟨"GET", "curl", "*/*", ⟨"/unknown/x", []⟩⟩

/-- Witness for claim C5: `/unknown/x` resolves with no error to the
`apiRoot` context with method `GET`. -/
theorem Parse_no_version_match_witness :
    (Parse exS6 reqUnknown DefaultURLParser DefaultResolver).2 = none
    ∧ (Parse exS6 reqUnknown DefaultURLParser DefaultResolver).1.type = "apiRoot"
    ∧ (Parse exS6 reqUnknown DefaultURLParser DefaultResolver).1.Method = "GET" :=
  Parse_no_version_match exS6 reqUnknown DefaultResolver (by decide)

/-- Claim C6.  When a registered version matched and the type resolver
binds no schema and raises no error, `Parse` returns a `NotFound` error
naming the requested type exactly when the type segment is non-empty, and
in either case the context is downgraded to method `GET`, type `apiRoot`,
and ID equal to the matched version's path (the context is returned
alongside the error). -/
theorem Parse_schema_not_found (schemas : Schemas) (req : Request) (rf : ResolverFunc)
    (v : APIVersion)
    (hv : schemas.versions.find?
        (fun x => x.Path == ((DefaultURLParser schemas req.URL).1).Version) = some v)
    (hres : rf (parsedContext schemas req DefaultURLParser).type
        (parsedContext schemas req DefaultURLParser) = Except.ok none) :
    (Parse schemas req DefaultURLParser rf).2 =
      (if ((DefaultURLParser schemas req.URL).1).type ≠ "" then
        some ⟨ErrorCodeKind.NotFound,
          "failed to find schema " ++ ((DefaultURLParser schemas req.URL).1).type⟩
      else none)
    ∧ (Parse schemas req DefaultURLParser rf).1.Method = "GET"
    ∧ (Parse schemas req DefaultURLParser rf).1.type = "apiRoot"
    ∧ (Parse schemas req DefaultURLParser rf).1.ID = v.Path := by
  have hver : (parsedContext schemas req DefaultURLParser).Version = some v := by
    rw [parsedContext_Version, hv]
  simp only [Parse]
  rw [DefaultURLParser_snd, hver, hres]
  exact ⟨rfl, rfl, rfl, rfl⟩

/-- Sample request naming an unknown type under `/v3`. -/
def reqPods : Request := ⟨"GET", "curl", "*/*", ⟨"/v3/pods", []⟩⟩

/-- Witness for claim C6: requesting unknown type `pods` under `/v3`
(empty schema table) yields the `NotFound` error naming `pods` and the
downgraded context with the version path as ID. -/
theorem Parse_schema_not_found_witness :
    (Parse exS6 reqPods DefaultURLParser DefaultResolver).2 =
      some ⟨ErrorCodeKind.NotFound, "failed to find schema pods"⟩
    ∧ (Parse exS6 reqPods DefaultURLParser DefaultResolver).1.ID = "/v3" := by
  have h := Parse_schema_not_found exS6 reqPods DefaultResolver ⟨"/v3", false, ""⟩
    (by decide) (by decide)
  refine ⟨?_, ?_⟩
  · rw [h.1]
    decide
  · exact h.2.2.2

/-- Sample request with `action=remove` and a `_method=PUT` override, for
a path with no type segment. -/
def reqRemove : Request :=
  ⟨"POST", "curl", "*/*", ⟨"/v3", [("action", "remove"), ("_method", "PUT")]⟩⟩

/-- Counterexample to claim C7 as stated: the path `/v3` matches the
registered version and `action=remove` is present, yet the final resolved
method of the returned context is `GET`, not `DELETE` — no schema gets
bound (there is no type segment), so `Parse` downgrades the context to
`apiRoot` and forces method `GET` after the action-derived override. -/
theorem Parse_action_remove_refuted :
    ¬ versionsForPath exS6 (normalizePath "/v3") = []
    ∧ queryGet reqRemove.URL.Query "action" = "remove"
    ∧ queryGet reqRemove.URL.Query "_method" = "PUT"
    ∧ (Parse exS6 reqRemove DefaultURLParser DefaultResolver).1.Method = "GET"
    ∧ ¬ (Parse exS6 reqRemove DefaultURLParser DefaultResolver).1.Method = "DELETE" := by
  refine ⟨by decide, by decide, by decide, by decide, by decide⟩

theorem parseVSC_fst_mem (schemas : Schemas) (path : String) (v0 : APIVersion)
    (restV : List APIVersion) (hv : versionsForPath schemas path = v0 :: restV) :
    ∃ x, (parseVersionAndSubContext schemas path).1 = some x
      ∧ x ∈ versionsForPath schemas path := by
  rw [parseVersionAndSubContext, hv]
  cases restV with
  | nil =>
    exact ⟨v0, rfl, List.mem_cons_self _ _⟩
  | cons v1 restV' =>
    by_cases hsub : (!v0.SubContext) = true
    · refine ⟨v0, ?_, List.mem_cons_self _ _⟩
      simp only [hsub, if_true]
    · simp only [Bool.not_eq_true] at hsub
      by_cases hshort : (remainingSegments v0 path).length < 2
      · refine ⟨v1, ?_, List.mem_cons_of_mem _ (List.mem_cons_self _ _)⟩
        simp only [hsub, if_pos hshort]
        rfl
      · cases hl : schemas.lookup v0 ((remainingSegments v0 path).getD 1 "") with
        | some s =>
          refine ⟨v0, ?_, List.mem_cons_self _ _⟩
          simp only [hsub, if_neg hshort, hl]
          rfl
        | none =>
          cases hf : (v1 :: restV').find?
              (fun w => (schemas.lookup w ((remainingSegments v0 path).getD 1 "")).isSome) with
          | some w =>
            refine ⟨w, ?_, List.mem_cons_of_mem _ (List.mem_of_find?_eq_some hf)⟩
            simp only [hsub, if_neg hshort, hl, hf]
            rfl
          | none =>
            refine ⟨v0, ?_, List.mem_cons_self _ _⟩
            simp only [hsub, if_neg hshort, hl, hf]
            rfl

/-- Claim C7 (amended).  For a request whose path matches some registered
version and whose `action` query parameter is `remove`, the URL parser's
method override is `DELETE` with an empty action, overriding any
`_method` value; whenever the type resolver binds a schema (so the
context is not downgraded to `apiRoot`), the final resolved method of the
returned context is `DELETE` and the action is empty. -/
theorem Parse_action_remove (schemas : Schemas) (req : Request) (rf : ResolverFunc)
    (schema : Schema)
    (hmatch : ¬ versionsForPath schemas (normalizePath req.URL.Path) = [])
    (haction : queryGet req.URL.Query "action" = "remove")
    (hres : rf (parsedContext schemas req DefaultURLParser).type
        (parsedContext schemas req DefaultURLParser) = Except.ok (some schema)) :
    (Parse schemas req DefaultURLParser rf).1.Method = "DELETE"
    ∧ (Parse schemas req DefaultURLParser rf).1.Action = "" := by
  obtain ⟨v0, restV, hv⟩ : ∃ v0 restV,
      versionsForPath schemas (normalizePath req.URL.Path) = v0 :: restV := by
    cases hcase : versionsForPath schemas (normalizePath req.URL.Path) with
    | nil => exact absurd hcase hmatch
    | cons a b => exact ⟨a, b, rfl⟩
  obtain ⟨x, hx1, hx2⟩ := parseVSC_fst_mem schemas (normalizePath req.URL.Path) v0 restV hv
  obtain ⟨hxreg, _⟩ := mem_versionsForPath schemas (normalizePath req.URL.Path) x hx2
  obtain ⟨pre, parts, sc, hp⟩ : ∃ pre parts sc,
      parseVersionAndSubContext schemas (normalizePath req.URL.Path) = (some x, pre, parts, sc) := by
    rcases hp0 : parseVersionAndSubContext schemas (normalizePath req.URL.Path) with ⟨ov, pre, parts, sc⟩
    rw [hp0] at hx1
    exact ⟨pre, parts, sc, by rw [show ov = some x from hx1]⟩
  have hact : parseAction req.URL = ("", "DELETE") := by
    simp [parseAction, haction]
  have hDU : (DefaultURLParser schemas req.URL).1 =
      { Version := x.Path, SubContext := sc, SubContextPref := pre,
        Action := (parseAction req.URL).1, Method := (parseAction req.URL).2,
        Query := req.URL.Query, type := safeIndex parts 0, ID := safeIndex parts 1,
        Link := safeIndex parts 2 } := by
    simp only [DefaultURLParser]
    rw [hp]
  have hpm : ((DefaultURLParser schemas req.URL).1).Method = "DELETE" := by
    simp only [hDU, hact]
  have hpa : ((DefaultURLParser schemas req.URL).1).Action = "" := by
    simp only [hDU, hact]
  have hMeth : (parsedContext schemas req DefaultURLParser).Method = "DELETE" := by
    rw [parsedContext_Method, hpm]
    simp
  have hAct : (parsedContext schemas req DefaultURLParser).Action = "" := by
    rw [parsedContext_Action, hpa]
  have hsome : ∃ v', (parsedContext schemas req DefaultURLParser).Version = some v' := by
    rw [parsedContext_Version]
    rw [← Option.isSome_iff_exists]
    rw [List.find?_isSome]
    refine ⟨x, hxreg, ?_⟩
    simp [hDU]
  obtain ⟨v', hv'⟩ := hsome
  simp only [Parse]
  rw [DefaultURLParser_snd, hv', hres]
  constructor
  · dsimp only
    split
    · exact hMeth
    · exact hMeth
  · dsimp only
    split
    · exact hAct
    · exact hAct

/-- Sample registry with the single version `/v3` knowing the `pods`
schema. -/
def exS7 : Schemas :=
  ⟨[⟨"/v3", false, ""⟩],
    fun v t => if v.Path = "/v3" ∧ t = "pods" then some exPodSchema else none⟩

/-- Sample request: `action=remove` with `_method=PUT` on a typed path. -/
def reqRemovePods : Request :=
  ⟨"POST", "curl", "*/*", ⟨"/v3/pods", [("action", "remove"), ("_method", "PUT")]⟩⟩

/-- Witness for claim C7 (amended): with a schema bound for `pods`, the
`action=remove` request resolves to method `DELETE` and empty action even
though `_method=PUT` was supplied. -/
theorem Parse_action_remove_witness :
    (Parse exS7 reqRemovePods DefaultURLParser DefaultResolver).1.Method = "DELETE"
    ∧ (Parse exS7 reqRemovePods DefaultURLParser DefaultResolver).1.Action = "" :=
  Parse_action_remove exS7 reqRemovePods DefaultResolver exPodSchema
    (by decide) (by decide) (by decide)

theorem parseResponseFormat_eq (req : Request) :
    parseResponseFormat req =
      (if allowedFormats (goTrimSpace (goToLower (queryGet req.URL.Query "_format"))) then
        goTrimSpace (goToLower (queryGet req.URL.Query "_format"))
      else if IsBrowser req true then "html"
      else "json") := by
  simp only [parseResponseFormat]
  by_cases h0 : queryGet req.URL.Query "_format" = ""
  · rw [h0]
    rfl
  · rw [if_pos h0]

/-- Claim C8.  The response-format selector returns the trimmed,
lower-cased `_format` value when it is in the allowed set `{html, json}`;
otherwise it returns `html` exactly when the request looks like an
interactive browser (`IsBrowser` with the accept check), and `json`
otherwise. -/
theorem parseResponseFormat_spec (req : Request) :
    (allowedFormats (goTrimSpace (goToLower (queryGet req.URL.Query "_format"))) = true →
      parseResponseFormat req = goTrimSpace (goToLower (queryGet req.URL.Query "_format")))
    ∧ (allowedFormats (goTrimSpace (goToLower (queryGet req.URL.Query "_format"))) = false →
        (IsBrowser req true = true → parseResponseFormat req = "html")
        ∧ (IsBrowser req true = false → parseResponseFormat req = "json")) := by
  refine ⟨fun h => ?_, fun h => ⟨fun hb => ?_, fun hb => ?_⟩⟩
  · rw [parseResponseFormat_eq, if_pos h]
  · rw [parseResponseFormat_eq, if_neg (by simp [h]), if_pos hb]
  · rw [parseResponseFormat_eq, if_neg (by simp [h]), if_neg (by simp [hb])]

/-- Sample request carrying the disallowed `_format=xml` from a
non-browser client. -/
def reqXml : Request :=
  ⟨"GET", "curl/7.1", "application/json", ⟨"/v3", [("_format", "xml")]⟩⟩

/-- Witness for claim C8: `_format=xml` with a non-browser User-Agent
resolves to `json`. -/
theorem parseResponseFormat_spec_witness : parseResponseFormat reqXml = "json" :=
  ((parseResponseFormat_spec reqXml).2 (by decide)).2 (by decide)

end RancherParse
